import Mathlib

/-!
Shallow embedding of `src/summarizer_api.py` (ToSDigest).

Python strings are modelled as `List Char` (`Str`); the external
text-generation service is modelled as an oracle `Nat → CallResult` giving
the outcome of the k-th outbound call of a request.  The pipeline is a pure
function from the input text and the oracle to the HTTP-level result
together with the ordered list of observable events (outbound calls and
sleeps), which is what the claims about call counts, retries and backoff
quantify over.  Prompt text does not influence control flow in the source,
so call events record only which kind of call was made (one-shot, segment
with its 1-based index, or reduction).
-/

abbrev Str := List Char

/-- Embedding of Python `text.split("\n\n")` (line 31 of the source):
split on each non-overlapping occurrence of the two-character separator,
scanning left to right, keeping empty pieces. -/
def splitParas : Str → List Str
  | [] => [[]]
  | '\n' :: '\n' :: rest => [] :: splitParas rest
  | c :: rest =>
    match splitParas rest with
    | [] => [[c]]
    | p :: ps => (c :: p) :: ps

/-- Embedding of Python `"\n\n".join(pieces)`. -/
def pyJoin : List Str → Str
  | [] => []
  | [p] => p
  | p :: ps => p ++ '\n' :: '\n' :: pyJoin ps

/-- The accumulation loop of `chunk_text` (source lines 32-44): state is the
running buffer `current`; chunks are emitted in order. -/
def chunkLoop (maxChars : Nat) (current : Str) : List Str → List Str
  | [] => if current.isEmpty then [] else [current]
  | p :: ps =>
    if current.length + p.length + 2 ≤ maxChars then
      chunkLoop maxChars (if current.isEmpty then p else current ++ '\n' :: '\n' :: p) ps
    else
      current :: chunkLoop maxChars p ps

/-- Embedding of `chunk_text(text, max_chars)` (source lines 26-44). -/
def chunk_text (text : Str) (maxChars : Nat) : List Str :=
  chunkLoop maxChars [] (splitParas text)

/-- `ONE_SHOT_THRESHOLD` (source line 22). -/
def ONE_SHOT_THRESHOLD : Nat := 80000

/-- `MAX_CHARS` (source line 24). -/
def MAX_CHARS : Nat := 15000

/-- Outcome of one outbound call to the external service: the response
content (`resp.choices[0].message.content`) or the raised exception's
message (`str(e)`). -/
inductive CallResult where
  | ok (content : Str)
  | err (msg : Str)
deriving DecidableEq, Repr

/-- Embedding of Python `s.lower()`. -/
def pyLower (s : Str) : Str := s.map Char.toLower

/-- Embedding of `"rate limit" in msg.lower()` (source lines 142, 171, 174). -/
def rateLimited (m : Str) : Bool := decide ("rate limit".toList <:+: pyLower m)

/-- Embedding of Python `s.strip()`: remove leading and trailing
whitespace. -/
def pyStrip (s : Str) : Str :=
  List.rdropWhile Char.isWhitespace (List.dropWhile Char.isWhitespace s)

/-- Which outbound call was made: the one-shot call (source line 121), the
call for the segment with 1-based index `idx` (line 160), or the reduction
call (line 190). -/
inductive CallKind where
  | oneShot
  | segment (idx : Nat)
  | reduce
deriving DecidableEq, Repr

/-- Observable event of a run: an outbound call, or `time.sleep(seconds)`. -/
inductive Event where
  | call (k : CallKind)
  | sleep (seconds : Nat)
deriving DecidableEq, Repr

/-- JSON body of the HTTP response: `{"summary": ...}` or `{"error": ...}`. -/
inductive Body where
  | summary (text : Str)
  | error (msg : Str)
deriving DecidableEq, Repr

/-- HTTP status code plus JSON body, the value a request handler returns. -/
structure HttpResult where
  status : Nat
  body : Body
deriving DecidableEq, Repr

/-- The per-segment attempt loop `for attempt in range(2)` (source lines
157-175), for the segment with index `idx`, starting at global call
counter `n`.  Returns the stripped partial summary or the error response,
the new call counter, and the events produced. -/
def segmentAttempts (oracle : Nat → CallResult) (idx n : Nat) :
    (Str ⊕ HttpResult) × Nat × List Event :=
  match oracle n with
  | .ok c => (Sum.inl (pyStrip c), n + 1, [Event.call (CallKind.segment idx)])
  | .err m =>
    if rateLimited m then
      match oracle (n + 1) with
      | .ok c =>
        (Sum.inl (pyStrip c), n + 2,
          [Event.call (CallKind.segment idx), Event.sleep 20,
           Event.call (CallKind.segment idx)])
      | .err m2 =>
        (Sum.inr ⟨if rateLimited m2 then 429 else 500, Body.error m2⟩, n + 2,
          [Event.call (CallKind.segment idx), Event.sleep 20,
           Event.call (CallKind.segment idx)])
    else
      (Sum.inr ⟨if rateLimited m then 429 else 500, Body.error m⟩, n + 1,
        [Event.call (CallKind.segment idx)])

/-- The loop over chunks `for idx, chunk in enumerate(chunks, start=1)`
(source lines 149-175): on the first failing segment the error response is
returned immediately; otherwise the list of partial summaries. -/
def chunksLoop (oracle : Nat → CallResult) : Nat → Nat → List Str →
    (List Str ⊕ HttpResult) × Nat × List Event
  | n, _, [] => (Sum.inl [], n, [])
  | n, idx, _ :: cs =>
    match segmentAttempts oracle idx n with
    | (Sum.inl s, n2, ev) =>
      match chunksLoop oracle n2 (idx + 1) cs with
      | (Sum.inl ss, n3, ev2) => (Sum.inl (s :: ss), n3, ev ++ ev2)
      | (Sum.inr r, n3, ev2) => (Sum.inr r, n3, ev ++ ev2)
    | (Sum.inr r, n2, ev) => (Sum.inr r, n2, ev)

/-- Embedding of the `/summarize` handler (source lines 106-200), with the
two module constants made explicit parameters.  Returns the HTTP result and
the ordered list of events of the run. -/
def summarizeWith (threshold maxChars : Nat) (text : Str)
    (oracle : Nat → CallResult) : HttpResult × List Event :=
  if text.isEmpty then (⟨400, Body.error "No text provided".toList⟩, [])
  else if text.length ≤ threshold then
    match oracle 0 with
    | .ok c => (⟨200, Body.summary (pyStrip c)⟩, [Event.call CallKind.oneShot])
    | .err m =>
      (⟨if rateLimited m then 429 else 500, Body.error m⟩,
       [Event.call CallKind.oneShot])
  else
    match chunksLoop oracle 0 1 (chunk_text text maxChars) with
    | (Sum.inr r, _, ev) => (r, ev)
    | (Sum.inl _, n, ev) =>
      match oracle n with
      | .ok c =>
        (⟨200, Body.summary (pyStrip c)⟩, ev ++ [Event.call CallKind.reduce])
      | .err m => (⟨500, Body.error m⟩, ev ++ [Event.call CallKind.reduce])

/-- The handler with the source's constant values
(`ONE_SHOT_THRESHOLD = 80000`, `MAX_CHARS = 15000`). -/
def summarize (text : Str) (oracle : Nat → CallResult) :
    HttpResult × List Event :=
  summarizeWith ONE_SHOT_THRESHOLD MAX_CHARS text oracle

/-- Does the event record a segment-level call? -/
def isSegCall : Event → Bool
  | Event.call (CallKind.segment _) => true
  | _ => false

/-- Does the event record a call for the segment with index `i`? -/
def isSegCallAt (i : Nat) : Event → Bool
  | Event.call (CallKind.segment j) => j == i
  | _ => false

/-- Does the event record the one-shot call? -/
def isOneShotCall : Event → Bool
  | Event.call CallKind.oneShot => true
  | _ => false

/-- Does the event record the reduction call? -/
def isReduceCall : Event → Bool
  | Event.call CallKind.reduce => true
  | _ => false

/-- Number of segment-level calls in an event list. -/
def segCalls (ev : List Event) : Nat := ev.countP isSegCall

/-- Number of calls for the segment with index `i`. -/
def segCallsAt (i : Nat) (ev : List Event) : Nat := ev.countP (isSegCallAt i)

/-- Number of one-shot calls. -/
def oneShotCalls (ev : List Event) : Nat := ev.countP isOneShotCall

/-- Number of reduction calls. -/
def reduceCalls (ev : List Event) : Nat := ev.countP isReduceCall


/-! ### Lemmas about splitting, joining and chunking -/

theorem splitParas_ne_nil (s : Str) : splitParas s ≠ [] := by
  induction s using splitParas.induct with
  | case1 => simp [splitParas.eq_1]
  | case2 rest ih => simp [splitParas.eq_2]
  | case3 c rest h hnil ih => exact absurd hnil ih
  | case4 c rest h p ps hps ih => rw [splitParas.eq_3 c rest h, hps]; simp

theorem pyJoin_cons (p : Str) (L : List Str) (h : L ≠ []) :
    pyJoin (p :: L) = p ++ '\n' :: '\n' :: pyJoin L := by
  cases L with
  | nil => exact absurd rfl h
  | cons q qs => rfl

theorem pyJoin_splitParas (s : Str) : pyJoin (splitParas s) = s := by
  induction s using splitParas.induct with
  | case1 => rfl
  | case2 rest ih =>
    rw [splitParas.eq_2, pyJoin_cons _ _ (splitParas_ne_nil rest), ih]
    rfl
  | case3 c rest h hnil ih => exact absurd hnil (splitParas_ne_nil rest)
  | case4 c rest h p ps hps ih =>
    rw [splitParas.eq_3 c rest h, hps]
    rw [hps] at ih
    cases ps with
    | nil => simpa [pyJoin] using ih
    | cons w ws =>
      rw [pyJoin_cons _ _ (by simp)] at ih
      rw [pyJoin_cons _ _ (by simp), List.cons_append, ih]

theorem splitParas_no_newline (s : Str) (h : ∀ c ∈ s, c ≠ '\n') :
    splitParas s = [s] := by
  induction s with
  | nil => rfl
  | cons c rest ih =>
    have hc : c ≠ '\n' := h c (by simp)
    rw [splitParas.eq_3 c rest (fun r hcn _ => hc hcn)]
    rw [ih (fun d hd => h d (by simp [hd]))]

theorem chunkLoop_ne_nil (mc : Nat) (current : Str) (ps : List Str)
    (h : current ≠ []) : chunkLoop mc current ps ≠ [] := by
  induction ps generalizing current with
  | nil =>
    cases current with
    | nil => exact absurd rfl h
    | cons d cs => simp [chunkLoop]
  | cons p ps ih =>
    cases current with
    | nil => exact absurd rfl h
    | cons d cs =>
      simp only [chunkLoop, List.isEmpty_cons, Bool.false_eq_true, if_false]
      split
      · exact ih _ (by simp)
      · simp

theorem pyJoin_glue (a b : Str) (L : List Str) :
    pyJoin ((a ++ '\n' :: '\n' :: b) :: L) = a ++ '\n' :: '\n' :: pyJoin (b :: L) := by
  cases L with
  | nil => rfl
  | cons w ws =>
    rw [pyJoin_cons (a ++ '\n' :: '\n' :: b) (w :: ws) (by simp),
      pyJoin_cons b (w :: ws) (by simp)]
    simp [List.append_assoc]

theorem chunkLoop_join (mc : Nat) (current : Str) (ps : List Str)
    (hcur : current ≠ []) (hps : ∀ p ∈ ps, p ≠ []) :
    pyJoin (chunkLoop mc current ps) = pyJoin (current :: ps) := by
  induction ps generalizing current with
  | nil =>
    cases current with
    | nil => exact absurd rfl hcur
    | cons d cs => rfl
  | cons p ps ih =>
    cases current with
    | nil => exact absurd rfl hcur
    | cons d cs =>
      have hp : p ≠ [] := hps p (by simp)
      have hps' : ∀ q ∈ ps, q ≠ [] := fun q hq => hps q (by simp [hq])
      simp only [chunkLoop, List.isEmpty_cons, Bool.false_eq_true, if_false]
      split
      · rw [ih _ (by simp) hps', pyJoin_glue,
          pyJoin_cons (d :: cs) (p :: ps) (by simp)]
      · rw [pyJoin_cons _ _ (chunkLoop_ne_nil mc p ps hp),
          pyJoin_cons _ _ (List.cons_ne_nil p ps), ih p hp hps']

theorem chunkLoop_all_ne_nil (mc : Nat) (current : Str) (ps : List Str)
    (hcur : current ≠ []) (hps : ∀ p ∈ ps, p ≠ []) :
    ∀ c ∈ chunkLoop mc current ps, c ≠ [] := by
  induction ps generalizing current with
  | nil =>
    cases current with
    | nil => exact absurd rfl hcur
    | cons d cs => simp [chunkLoop]
  | cons p ps ih =>
    cases current with
    | nil => exact absurd rfl hcur
    | cons d cs =>
      have hp : p ≠ [] := hps p (by simp)
      have hps' : ∀ q ∈ ps, q ≠ [] := fun q hq => hps q (by simp [hq])
      simp only [chunkLoop, List.isEmpty_cons, Bool.false_eq_true, if_false]
      split
      · exact ih _ (by simp) hps'
      · intro c hc
        rcases List.mem_cons.mp hc with rfl | hc
        · simp
        · exact ih p hp hps' c hc

theorem chunkLoop_bound (mc : Nat) (P : List Str) (current : Str) (ps : List Str)
    (hcur : current.length ≤ mc ∨ current ∈ P) (hps : ∀ p ∈ ps, p ∈ P) :
    ∀ c ∈ chunkLoop mc current ps, c.length ≤ mc ∨ (c ∈ P ∧ mc < c.length) := by
  induction ps generalizing current with
  | nil =>
    intro c hc
    simp only [chunkLoop] at hc
    split at hc
    · simp at hc
    · rw [List.mem_singleton] at hc
      subst hc
      rcases hcur with h | h
      · exact Or.inl h
      · by_cases hlen : c.length ≤ mc
        · exact Or.inl hlen
        · exact Or.inr ⟨h, by omega⟩
  | cons p ps ih =>
    have hpP : p ∈ P := hps p (by simp)
    have hps' : ∀ q ∈ ps, q ∈ P := fun q hq => hps q (by simp [hq])
    intro c hc
    simp only [chunkLoop] at hc
    split at hc
    · next hfit =>
      by_cases hemp : current.isEmpty = true
      · rw [if_pos hemp] at hc
        exact ih p (Or.inr hpP) hps' c hc
      · rw [if_neg hemp] at hc
        refine ih _ (Or.inl ?_) hps' c hc
        simp only [List.length_append, List.length_cons]
        omega
    · rcases List.mem_cons.mp hc with rfl | hc
      · rcases hcur with h | h
        · exact Or.inl h
        · by_cases hlen : c.length ≤ mc
          · exact Or.inl hlen
          · exact Or.inr ⟨h, by omega⟩
      · exact ih p (Or.inr hpP) hps' c hc

theorem chunkLoop_nil_replicate (mc r : Nat) (h2 : 2 ≤ mc) :
    chunkLoop mc [] (List.replicate r ([] : Str)) = [] := by
  induction r with
  | zero => rfl
  | succ r ih =>
    rw [List.replicate_succ]
    simp only [chunkLoop, List.length_nil, List.isEmpty_nil, if_true]
    rw [if_pos (by omega)]
    exact ih

theorem splitParas_replicate_newline (k : Nat) :
    splitParas (List.replicate (2 * k) '\n') = List.replicate (k + 1) ([] : Str) := by
  induction k with
  | zero => rfl
  | succ k ih =>
    have h : 2 * (k + 1) = 2 * k + 1 + 1 := by ring
    rw [h, List.replicate_succ, List.replicate_succ, splitParas.eq_2, ih,
      ← List.replicate_succ]

/-! ### Claims about the partitioner -/

/-- C1 (amended): for every text all of whose paragraphs (the pieces of the
split on the double-newline delimiter) are non-empty and whose first
paragraph fits within `maxChars` (its length plus the delimiter length 2),
concatenating the segments of `chunk_text` with the paragraph delimiter
reinserted between consecutive segments reconstructs the text exactly. -/
theorem chunk_text_join_reconstructs (text : Str) (maxChars : Nat)
    (p0 : Str) (ps : List Str)
    (hsplit : splitParas text = p0 :: ps)
    (hfit : p0.length + 2 ≤ maxChars)
    (hne : ∀ p ∈ splitParas text, p ≠ []) :
    pyJoin (chunk_text text maxChars) = text := by
  unfold chunk_text
  rw [hsplit] at hne ⊢
  have hp0 : p0 ≠ [] := hne p0 (by simp)
  simp only [chunkLoop, List.isEmpty_nil, if_true, List.length_nil]
  rw [if_pos (by omega)]
  rw [chunkLoop_join maxChars p0 ps hp0 (fun q hq => hne q (by simp [hq]))]
  rw [← hsplit, pyJoin_splitParas]

/-- Witness for C1 (amended) at `text = "ab\n\ncd"`, `maxChars = 10`. -/
theorem chunk_text_join_reconstructs_witness :
    splitParas "ab\n\ncd".toList = [['a', 'b'], ['c', 'd']] ∧
    (['a', 'b'] : Str).length + 2 ≤ 10 ∧
    (∀ p ∈ splitParas "ab\n\ncd".toList, p ≠ []) ∧
    pyJoin (chunk_text "ab\n\ncd".toList 10) = "ab\n\ncd".toList :=
  ⟨by decide, by decide, by decide,
    chunk_text_join_reconstructs "ab\n\ncd".toList 10 ['a', 'b'] [['c', 'd']]
      (by decide) (by decide) (by decide)⟩

/-- C1 counterexample: the non-empty text `"\n\n"` splits into two empty
paragraphs, `chunk_text` returns no segment at all, and the join of the
segments is the empty string, not the original text. -/
theorem chunk_text_join_cex :
    "\n\n".toList ≠ ([] : Str) ∧
    pyJoin (chunk_text "\n\n".toList MAX_CHARS) ≠ "\n\n".toList := by
  exact ⟨by decide, by decide⟩

/-- C5 (amended): if every paragraph of the text is non-empty and the first
paragraph fits within `maxChars`, then `chunk_text` never emits an empty
segment. -/
theorem chunk_text_no_empty_segment (text : Str) (maxChars : Nat)
    (p0 : Str) (ps : List Str)
    (hsplit : splitParas text = p0 :: ps)
    (hfit : p0.length + 2 ≤ maxChars)
    (hne : ∀ p ∈ splitParas text, p ≠ []) :
    ∀ c ∈ chunk_text text maxChars, c ≠ [] := by
  unfold chunk_text
  rw [hsplit] at hne ⊢
  have hp0 : p0 ≠ [] := hne p0 (by simp)
  simp only [chunkLoop, List.isEmpty_nil, if_true, List.length_nil]
  rw [if_pos (by omega)]
  exact chunkLoop_all_ne_nil maxChars p0 ps hp0 (fun q hq => hne q (by simp [hq]))

/-- Witness for C5 (amended) at `text = "x\n\ny"`, `maxChars = 9`. -/
theorem chunk_text_no_empty_segment_witness :
    splitParas "x\n\ny".toList = [['x'], ['y']] ∧
    (['x'] : Str).length + 2 ≤ 9 ∧
    (∀ p ∈ splitParas "x\n\ny".toList, p ≠ []) ∧
    ∀ c ∈ chunk_text "x\n\ny".toList 9, c ≠ [] :=
  ⟨by decide, by decide, by decide,
    chunk_text_no_empty_segment "x\n\ny".toList 9 ['x'] [['y']]
      (by decide) (by decide) (by decide)⟩

/-- C5 counterexample: with `maxChars = 4` the single paragraph `"abc"`
does not fit (3 + 2 > 4) while the buffer is still empty, so the empty
buffer is flushed as a segment: `chunk_text "abc" 4 = ["", "abc"]`. -/
theorem chunk_text_empty_segment_cex :
    ([] : Str) ∈ chunk_text "abc".toList 4 := by decide

/-- C6: every segment produced by `chunk_text` has length at most
`maxChars`, except a segment that is itself one (oversized) paragraph of
the text, which is passed through whole, so its length is exactly that
paragraph's length. -/
theorem chunk_text_segment_bound (text : Str) (maxChars : Nat) :
    ∀ c ∈ chunk_text text maxChars,
      c.length ≤ maxChars ∨ (c ∈ splitParas text ∧ maxChars < c.length) := by
  unfold chunk_text
  exact chunkLoop_bound maxChars (splitParas text) [] (splitParas text)
    (Or.inl (by simp)) (fun p hp => hp)

/-- Witness for C6 at the oversized single paragraph `"abcde"` with
`maxChars = 4`: the segment is the paragraph itself, longer than 4. -/
theorem chunk_text_segment_bound_witness :
    "abcde".toList ∈ chunk_text "abcde".toList 4 ∧
    ("abcde".toList.length ≤ 4 ∨
      ("abcde".toList ∈ splitParas "abcde".toList ∧ 4 < "abcde".toList.length)) :=
  ⟨by decide, chunk_text_segment_bound "abcde".toList 4 "abcde".toList (by decide)⟩

/-! ### Lemmas about the pipeline -/

theorem segmentAttempts_events (oracle : Nat → CallResult) (idx n : Nat) :
    ∀ e ∈ (segmentAttempts oracle idx n).2.2,
      e = Event.sleep 20 ∨ e = Event.call (CallKind.segment idx) := by
  unfold segmentAttempts
  rcases ho : oracle n with c | m
  · simp
  · by_cases h : rateLimited m
    · rcases ho2 : oracle (n + 1) with c2 | m2 <;> simp [h]
    · simp [h]

theorem segmentAttempts_fail (oracle : Nat → CallResult) (idx n n2 : Nat)
    (r : HttpResult) (ev : List Event)
    (hfail : segmentAttempts oracle idx n = (Sum.inr r, n2, ev)) :
    ∃ m, r.body = Body.error m ∧
      r.status = (if rateLimited m then 429 else 500) := by
  unfold segmentAttempts at hfail
  rcases ho : oracle n with c | m <;> simp only [ho] at hfail
  · simp at hfail
  · by_cases h : rateLimited m
    · rw [if_pos h] at hfail
      rcases ho2 : oracle (n + 1) with c2 | m2 <;> simp only [ho2] at hfail
      · simp at hfail
      · simp only [Prod.mk.injEq, Sum.inr.injEq] at hfail
        obtain ⟨hr, -, -⟩ := hfail
        subst hr
        exact ⟨m2, rfl, rfl⟩
    · rw [if_neg h] at hfail
      simp only [Prod.mk.injEq, Sum.inr.injEq] at hfail
      obtain ⟨hr, -, -⟩ := hfail
      subst hr
      exact ⟨m, rfl, rfl⟩

theorem segmentAttempts_events_cases (oracle : Nat → CallResult)
    (idx n : Nat) (sr : Str ⊕ HttpResult) (n2 : Nat) (ev : List Event)
    (h : segmentAttempts oracle idx n = (sr, n2, ev)) :
    ev = [Event.call (CallKind.segment idx)] ∨
    ev = [Event.call (CallKind.segment idx), Event.sleep 20,
          Event.call (CallKind.segment idx)] := by
  unfold segmentAttempts at h
  rcases ho : oracle n with c | m <;> simp only [ho] at h
  · simp only [Prod.mk.injEq] at h
    exact Or.inl h.2.2.symm
  · by_cases hrl : rateLimited m
    · rw [if_pos hrl] at h
      rcases ho2 : oracle (n + 1) with c2 | m2 <;> simp only [ho2] at h <;>
        simp only [Prod.mk.injEq] at h <;> exact Or.inr h.2.2.symm
    · rw [if_neg hrl] at h
      simp only [Prod.mk.injEq] at h
      exact Or.inl h.2.2.symm

theorem segmentAttempts_segCallsAt (oracle : Nat → CallResult)
    (idx n j : Nat) (sr : Str ⊕ HttpResult) (n2 : Nat) (ev : List Event)
    (h : segmentAttempts oracle idx n = (sr, n2, ev)) :
    segCallsAt j ev ≤ 2 ∧ (j ≠ idx → segCallsAt j ev = 0) := by
  rcases segmentAttempts_events_cases oracle idx n sr n2 ev h with hev | hev <;>
    rw [hev] <;> by_cases hj : idx = j <;>
    simp [segCallsAt, isSegCallAt, List.countP_cons, hj]

theorem chunksLoop_head_fail (oracle : Nat → CallResult) (n idx n2 : Nat)
    (r : HttpResult) (ev : List Event) (c : Str) (ds : List Str)
    (hfail : segmentAttempts oracle idx n = (Sum.inr r, n2, ev)) :
    chunksLoop oracle n idx (c :: ds) = (Sum.inr r, n2, ev) := by
  simp only [chunksLoop, hfail]

theorem chunksLoop_events (oracle : Nat → CallResult) (cs : List Str) :
    ∀ n i res n2 ev, chunksLoop oracle n i cs = (res, n2, ev) →
      ∀ e ∈ ev, e = Event.sleep 20 ∨
        ∃ j, e = Event.call (CallKind.segment j) ∧ i ≤ j ∧ j < i + cs.length := by
  induction cs with
  | nil =>
    intro n i res n2 ev h
    simp only [chunksLoop, Prod.mk.injEq] at h
    obtain ⟨-, -, hev⟩ := h
    rw [← hev]
    simp
  | cons c cs ih =>
    intro n i res n2 ev h
    rcases hsa : segmentAttempts oracle i n with ⟨sr, n', ev1⟩
    have hseg := segmentAttempts_events_cases oracle i n sr n' ev1 hsa
    have hseg' : ∀ e ∈ ev1, e = Event.sleep 20 ∨
        e = Event.call (CallKind.segment i) := by
      intro e he
      rcases hseg with hc | hc <;> rw [hc] at he <;> simp at he
      · exact Or.inr he
      · rcases he with rfl | rfl | rfl
        · exact Or.inr rfl
        · exact Or.inl rfl
        · exact Or.inr rfl
    rcases sr with s | r'
    · rcases hrec : chunksLoop oracle n' (i + 1) cs with ⟨res', n3, ev2⟩
      have htail := ih n' (i + 1) res' n3 ev2 hrec
      have hev : ev = ev1 ++ ev2 := by
        rcases res' with ss | r'' <;>
          simp only [chunksLoop, hsa, hrec, Prod.mk.injEq] at h <;>
          exact h.2.2.symm
      rw [hev]
      intro e he
      rcases List.mem_append.mp he with h1 | h2
      · rcases hseg' e h1 with hs | hs
        · exact Or.inl hs
        · exact Or.inr ⟨i, hs, le_refl i, by simp⟩
      · rcases htail e h2 with hs | ⟨j, hj, hj1, hj2⟩
        · exact Or.inl hs
        · exact Or.inr ⟨j, hj, by omega, by simp only [List.length_cons]; omega⟩
    · have hev : ev = ev1 := by
        simp only [chunksLoop, hsa, Prod.mk.injEq] at h
        exact h.2.2.symm
      rw [hev]
      intro e he
      rcases hseg' e he with hs | hs
      · exact Or.inl hs
      · exact Or.inr ⟨i, hs, le_refl i, by simp⟩

theorem chunksLoop_fail (oracle : Nat → CallResult) (cs : List Str) :
    ∀ n i r n2 ev, chunksLoop oracle n i cs = (Sum.inr r, n2, ev) →
      ∃ m, r.body = Body.error m ∧
        r.status = (if rateLimited m then 429 else 500) := by
  induction cs with
  | nil =>
    intro n i r n2 ev h
    simp [chunksLoop] at h
  | cons c cs ih =>
    intro n i r n2 ev h
    rcases hsa : segmentAttempts oracle i n with ⟨sr, n', ev1⟩
    rcases sr with s | r'
    · rcases hrec : chunksLoop oracle n' (i + 1) cs with ⟨res', n3, ev2⟩
      rcases res' with ss | r''
      · simp only [chunksLoop, hsa, hrec, Prod.mk.injEq] at h
        exact absurd h.1 (by simp)
      · simp only [chunksLoop, hsa, hrec, Prod.mk.injEq, Sum.inr.injEq] at h
        obtain ⟨rfl, -, -⟩ := h
        exact ih n' (i + 1) r'' n3 ev2 hrec
    · simp only [chunksLoop, hsa, Prod.mk.injEq, Sum.inr.injEq] at h
      obtain ⟨rfl, -, -⟩ := h
      exact segmentAttempts_fail oracle i n n' r' ev1 hsa

theorem chunksLoop_append (oracle : Nat → CallResult) (ds cs : List Str) :
    ∀ n i ss n2 ev1, chunksLoop oracle n i cs = (Sum.inl ss, n2, ev1) →
    ∀ res n3 ev2, chunksLoop oracle n2 (i + cs.length) ds = (res, n3, ev2) →
    chunksLoop oracle n i (cs ++ ds) =
      (Sum.elim (fun ss2 => Sum.inl (ss ++ ss2)) Sum.inr res, n3, ev1 ++ ev2) := by
  induction cs with
  | nil =>
    intro n i ss n2 ev1 h res n3 ev2 h2
    simp only [chunksLoop, Prod.mk.injEq, Sum.inl.injEq] at h
    obtain ⟨rfl, rfl, rfl⟩ := h
    simp only [List.length_nil, Nat.add_zero] at h2
    rcases res with ss2 | r <;> simpa using h2
  | cons c cs ih =>
    intro n i ss n2 ev1 h res n3 ev2 h2
    rcases hsa : segmentAttempts oracle i n with ⟨sr, n', evh⟩
    rcases sr with s | r'
    · rcases hrec : chunksLoop oracle n' (i + 1) cs with ⟨res', nx, evt⟩
      rcases res' with ss' | r''
      · simp only [chunksLoop, hsa, hrec, Prod.mk.injEq, Sum.inl.injEq] at h
        obtain ⟨rfl, rfl, rfl⟩ := h
        rw [List.length_cons,
          show i + (cs.length + 1) = i + 1 + cs.length from by omega] at h2
        have hcomp := ih n' (i + 1) ss' nx evt hrec res n3 ev2 h2
        simp only [List.cons_append, chunksLoop, hsa, List.append_eq]
        rw [hcomp]
        rcases res with ss2 | r <;> simp [List.append_assoc]
      · simp only [chunksLoop, hsa, hrec, Prod.mk.injEq] at h
        exact absurd h.1 (by simp)
    · simp only [chunksLoop, hsa, Prod.mk.injEq] at h
      exact absurd h.1 (by simp)

theorem chunksLoop_all_ok (oracle : Nat → CallResult)
    (hok : ∀ k, ∃ c, oracle k = CallResult.ok c) (cs : List Str) :
    ∀ n i, ∃ ss, chunksLoop oracle n i cs =
      (Sum.inl ss, n + cs.length,
        (List.range' i cs.length).map fun j => Event.call (CallKind.segment j)) := by
  induction cs with
  | nil => intro n i; exact ⟨[], by simp [chunksLoop]⟩
  | cons c cs ih =>
    intro n i
    obtain ⟨cc, hcc⟩ := hok n
    obtain ⟨ss, hss⟩ := ih (n + 1) (i + 1)
    refine ⟨pyStrip cc :: ss, ?_⟩
    have hsa : segmentAttempts oracle i n =
        (Sum.inl (pyStrip cc), n + 1, [Event.call (CallKind.segment i)]) := by
      unfold segmentAttempts
      rw [hcc]
    simp only [chunksLoop, hsa, hss, List.length_cons, List.range'_succ,
      List.map_cons, Prod.mk.injEq, Sum.inl.injEq, List.singleton_append]
    refine ⟨?_, ?_, ?_⟩ <;> first | trivial | omega

theorem chunksLoop_segCallsAt (oracle : Nat → CallResult) (cs : List Str) :
    ∀ n i res n2 ev, chunksLoop oracle n i cs = (res, n2, ev) →
      ∀ j, segCallsAt j ev ≤ 2 ∧ (j < i → segCallsAt j ev = 0) := by
  induction cs with
  | nil =>
    intro n i res n2 ev h
    simp only [chunksLoop, Prod.mk.injEq] at h
    obtain ⟨-, -, hev⟩ := h
    rw [← hev]
    simp [segCallsAt]
  | cons c cs ih =>
    intro n i res n2 ev h j
    rcases hsa : segmentAttempts oracle i n with ⟨sr, n', ev1⟩
    have hhead := segmentAttempts_segCallsAt oracle i n j sr n' ev1 hsa
    rcases sr with s | r'
    · rcases hrec : chunksLoop oracle n' (i + 1) cs with ⟨res', n3, ev2⟩
      have htail := ih n' (i + 1) res' n3 ev2 hrec j
      have hev : ev = ev1 ++ ev2 := by
        rcases res' with ss | r'' <;>
          simp only [chunksLoop, hsa, hrec, Prod.mk.injEq] at h <;>
          exact h.2.2.symm
      subst hev
      simp only [segCallsAt, List.countP_append] at hhead htail ⊢
      by_cases hji : j = i
      · have hB : List.countP (isSegCallAt j) ev2 = 0 := htail.2 (by omega)
        have hA := hhead.1
        constructor
        · omega
        · intro hlt
          omega
      · have hA : List.countP (isSegCallAt j) ev1 = 0 := hhead.2 hji
        have hB := htail.1
        constructor
        · omega
        · intro hlt
          have hB0 : List.countP (isSegCallAt j) ev2 = 0 := htail.2 (by omega)
          omega
    · have hev : ev = ev1 := by
        simp only [chunksLoop, hsa, Prod.mk.injEq] at h
        exact h.2.2.symm
      subst hev
      exact ⟨hhead.1, fun hlt => hhead.2 (by omega)⟩

theorem head?_dropWhile_false (p : Char → Bool) (s : Str) :
    ∀ h, (s.dropWhile p).head? = some h → p h = false := by
  induction s with
  | nil => intro h hh; simp [List.dropWhile] at hh
  | cons a s ih =>
    intro h hh
    by_cases hp : p a
    · rw [List.dropWhile_cons_of_pos hp] at hh
      exact ih h hh
    · rw [List.dropWhile_cons_of_neg hp] at hh
      simp only [List.head?_cons, Option.some.injEq] at hh
      rw [← hh]
      exact Bool.not_eq_true _ |>.mp hp

theorem pyStrip_head_not_ws (s : Str) :
    ∀ h, (pyStrip s).head? = some h → h.isWhitespace = false := by
  intro h hh
  obtain ⟨t, ht⟩ :=
    List.rdropWhile_prefix Char.isWhitespace (List.dropWhile Char.isWhitespace s)
  unfold pyStrip at hh
  cases hcase : List.rdropWhile Char.isWhitespace
      (List.dropWhile Char.isWhitespace s) with
  | nil => rw [hcase] at hh; simp at hh
  | cons a u =>
    rw [hcase] at hh
    simp only [List.head?_cons, Option.some.injEq] at hh
    rw [← hh]
    apply head?_dropWhile_false Char.isWhitespace s
    rw [← ht, hcase]
    simp

theorem pyStrip_getLast_not_ws (s : Str) :
    ∀ h, (pyStrip s).getLast? = some h → h.isWhitespace = false := by
  intro h hh
  unfold pyStrip List.rdropWhile at hh
  rw [List.getLast?_reverse] at hh
  exact head?_dropWhile_false Char.isWhitespace _ h hh

/-- Any run that answers HTTP 200 got its summary from some successful
call's response, with `strip()` applied (source lines 137 and 196). -/
theorem summarize_success_shape (threshold maxChars : Nat) (text : Str)
    (oracle : Nat → CallResult)
    (h200 : (summarizeWith threshold maxChars text oracle).1.status = 200) :
    ∃ k c, oracle k = CallResult.ok c ∧
      (summarizeWith threshold maxChars text oracle).1.body =
        Body.summary (pyStrip c) := by
  unfold summarizeWith at h200 ⊢
  by_cases hemp : text.isEmpty
  · rw [if_pos hemp] at h200
    simp at h200
  · rw [if_neg hemp] at h200 ⊢
    by_cases hlen : text.length ≤ threshold
    · rw [if_pos hlen] at h200 ⊢
      rcases ho : oracle 0 with c | m
      · exact ⟨0, c, ho, by simp only [ho]⟩
      · simp only [ho] at h200
        split_ifs at h200 <;> simp at h200
    · rw [if_neg hlen] at h200 ⊢
      rcases hloop : chunksLoop oracle 0 1 (chunk_text text maxChars)
        with ⟨res, nn, ev⟩
      rcases res with ss | r
      · simp only [hloop] at h200 ⊢
        rcases ho : oracle nn with c | m
        · exact ⟨nn, c, ho, by simp only [ho]⟩
        · simp only [ho] at h200
          simp at h200
      · simp only [hloop] at h200
        obtain ⟨m, -, hstatus⟩ :=
          chunksLoop_fail oracle (chunk_text text maxChars) 0 1 r nn ev hloop
        simp only [hstatus] at h200
        split_ifs at h200 <;> simp at h200

/-! ### Claims about the pipeline -/

/-- C7 (amended): on every success path the summary returned is the
response text of a successful call with leading and trailing whitespace
stripped (`.strip()`), and nothing else is applied. -/
theorem summary_is_stripped_response (threshold maxChars : Nat) (text : Str)
    (oracle : Nat → CallResult)
    (h200 : (summarizeWith threshold maxChars text oracle).1.status = 200) :
    ∃ k c, oracle k = CallResult.ok c ∧
      (summarizeWith threshold maxChars text oracle).1.body =
        Body.summary (pyStrip c) :=
  summarize_success_shape threshold maxChars text oracle h200

/-- Witness for C7 (amended): a one-shot run answering 200. -/
theorem summary_is_stripped_response_witness :
    (summarizeWith 5 5 ['a'] (fun _ => CallResult.ok " x ".toList)).1.status
        = 200 ∧
    ∃ k c, (fun _ => CallResult.ok " x ".toList : Nat → CallResult) k
        = CallResult.ok c ∧
      (summarizeWith 5 5 ['a'] (fun _ => CallResult.ok " x ".toList)).1.body =
        Body.summary (pyStrip c) :=
  ⟨by decide,
    summary_is_stripped_response 5 5 ['a'] (fun _ => CallResult.ok " x ".toList)
      (by decide)⟩

/-- C7 counterexample: the service answers `" x "`; the pipeline returns
the summary `"x"`, not the response text unchanged — `.strip()` is applied
before the text is placed in the JSON `summary` field. -/
theorem summary_not_verbatim_cex :
    (summarize ['a'] (fun _ => CallResult.ok " x ".toList)).1.status = 200 ∧
    (summarize ['a'] (fun _ => CallResult.ok " x ".toList)).1.body ≠
      Body.summary " x ".toList := by
  exact ⟨by decide, by decide⟩

/-- C10: on every success path the summary equals a successful call's
response text with leading and trailing whitespace removed, and in
particular it neither begins nor ends with a whitespace character. -/
theorem summary_trimmed (threshold maxChars : Nat) (text : Str)
    (oracle : Nat → CallResult)
    (h200 : (summarizeWith threshold maxChars text oracle).1.status = 200) :
    ∃ k c, oracle k = CallResult.ok c ∧
      (summarizeWith threshold maxChars text oracle).1.body =
        Body.summary (pyStrip c) ∧
      (∀ h, (pyStrip c).head? = some h → h.isWhitespace = false) ∧
      (∀ h, (pyStrip c).getLast? = some h → h.isWhitespace = false) := by
  obtain ⟨k, c, hk, hbody⟩ :=
    summarize_success_shape threshold maxChars text oracle h200
  exact ⟨k, c, hk, hbody, pyStrip_head_not_ws c, pyStrip_getLast_not_ws c⟩

/-- Witness for C10: a one-shot run answering 200. -/
theorem summary_trimmed_witness :
    (summarizeWith 9 9 ['b'] (fun _ => CallResult.ok " y\n".toList)).1.status
        = 200 ∧
    ∃ k c, (fun _ => CallResult.ok " y\n".toList : Nat → CallResult) k
        = CallResult.ok c ∧
      (summarizeWith 9 9 ['b'] (fun _ => CallResult.ok " y\n".toList)).1.body =
        Body.summary (pyStrip c) ∧
      (∀ h, (pyStrip c).head? = some h → h.isWhitespace = false) ∧
      (∀ h, (pyStrip c).getLast? = some h → h.isWhitespace = false) :=
  ⟨by decide,
    summary_trimmed 9 9 ['b'] (fun _ => CallResult.ok " y\n".toList)
      (by decide)⟩

/-- C3: in the chunk path, a segment whose invocations both fail with a
rate-limit-indicating message is attempted exactly twice in total, with a
single fixed 20-second sleep between the two attempts, and the request then
ends with HTTP 429 carrying the second message — no further calls of any
kind are made. -/
theorem segment_rate_limit_retry (threshold maxChars n : Nat) (text : Str)
    (oracle : Nat → CallResult) (cs ds : List Str) (c : Str)
    (ss : List Str) (ev1 : List Event) (m1 m2 : Str)
    (hne : text.isEmpty = false) (hlong : ¬ text.length ≤ threshold)
    (hchunks : chunk_text text maxChars = cs ++ c :: ds)
    (hpre : chunksLoop oracle 0 1 cs = (Sum.inl ss, n, ev1))
    (h1 : oracle n = CallResult.err m1) (hr1 : rateLimited m1 = true)
    (h2 : oracle (n + 1) = CallResult.err m2) (hr2 : rateLimited m2 = true) :
    summarizeWith threshold maxChars text oracle =
      (⟨429, Body.error m2⟩,
       ev1 ++ [Event.call (CallKind.segment (1 + cs.length)), Event.sleep 20,
               Event.call (CallKind.segment (1 + cs.length))]) := by
  have hsa : segmentAttempts oracle (1 + cs.length) n =
      (Sum.inr ⟨429, Body.error m2⟩, n + 2,
       [Event.call (CallKind.segment (1 + cs.length)), Event.sleep 20,
        Event.call (CallKind.segment (1 + cs.length))]) := by
    simp only [segmentAttempts, h1, hr1, if_true, h2, hr2]
  have hfailloop := chunksLoop_head_fail oracle n (1 + cs.length) (n + 2)
    ⟨429, Body.error m2⟩ _ c ds hsa
  have hcomp := chunksLoop_append oracle (c :: ds) cs 0 1 ss n ev1 hpre
    (Sum.inr ⟨429, Body.error m2⟩) (n + 2) _ hfailloop
  unfold summarizeWith
  rw [if_neg (by simp [hne]), if_neg hlong, hchunks]
  rw [hcomp]
  simp

/-- Witness for C3 at a one-chunk text whose segment call is rate limited
on both attempts. -/
theorem segment_rate_limit_retry_witness :
    ("ab".toList : Str).isEmpty = false ∧
    ¬ ("ab".toList : Str).length ≤ 0 ∧
    chunk_text "ab".toList 10 = [] ++ ['a', 'b'] :: [] ∧
    chunksLoop (fun _ => CallResult.err "rate limit".toList) 0 1 [] =
      (Sum.inl [], 0, []) ∧
    rateLimited "rate limit".toList = true ∧
    summarizeWith 0 10 "ab".toList (fun _ => CallResult.err "rate limit".toList) =
      (⟨429, Body.error "rate limit".toList⟩,
       [] ++ [Event.call (CallKind.segment (1 + List.length ([] : List Str))),
              Event.sleep 20,
              Event.call (CallKind.segment (1 + List.length ([] : List Str)))]) :=
  ⟨by decide, by decide, by decide, rfl, by decide,
    segment_rate_limit_retry 0 10 0 "ab".toList
      (fun _ => CallResult.err "rate limit".toList) [] [] ['a', 'b'] [] []
      "rate limit".toList "rate limit".toList
      (by decide) (by decide) (by decide) rfl rfl (by decide) rfl (by decide)⟩

/-- C8: in the chunk path, when the segment after a successfully processed
prefix fails (its retry exhausted), the pipeline returns that failure at
once: the response is an error (no partial summaries are returned), no
reduction call is ever made, and no segment beyond the failing one is ever
submitted. -/
theorem segment_failure_short_circuit (threshold maxChars n n2 : Nat)
    (text c : Str) (oracle : Nat → CallResult) (cs ds : List Str)
    (ss : List Str) (ev1 evf : List Event) (r : HttpResult)
    (hne : text.isEmpty = false) (hlong : ¬ text.length ≤ threshold)
    (hchunks : chunk_text text maxChars = cs ++ c :: ds)
    (hpre : chunksLoop oracle 0 1 cs = (Sum.inl ss, n, ev1))
    (hfail : segmentAttempts oracle (1 + cs.length) n = (Sum.inr r, n2, evf)) :
    summarizeWith threshold maxChars text oracle = (r, ev1 ++ evf) ∧
    (∃ m, r.body = Body.error m) ∧ r.status ≠ 200 ∧
    (∀ e ∈ ev1 ++ evf, e ≠ Event.call CallKind.reduce) ∧
    (∀ j, Event.call (CallKind.segment j) ∈ ev1 ++ evf → j ≤ 1 + cs.length) := by
  have hfailloop := chunksLoop_head_fail oracle n (1 + cs.length) n2 r evf c ds hfail
  have hcomp := chunksLoop_append oracle (c :: ds) cs 0 1 ss n ev1 hpre
    (Sum.inr r) n2 evf hfailloop
  have hmain : summarizeWith threshold maxChars text oracle = (r, ev1 ++ evf) := by
    unfold summarizeWith
    rw [if_neg (by simp [hne]), if_neg hlong, hchunks]
    rw [hcomp]
    simp
  obtain ⟨m, hbody, hstatus⟩ :=
    segmentAttempts_fail oracle (1 + cs.length) n n2 r evf hfail
  have hev1 := chunksLoop_events oracle cs 0 1 (Sum.inl ss) n ev1 hpre
  have hevf := segmentAttempts_events_cases oracle (1 + cs.length) n
    (Sum.inr r) n2 evf hfail
  refine ⟨hmain, ⟨m, hbody⟩, ?_, ?_, ?_⟩
  · rw [hstatus]
    split_ifs <;> omega
  · intro e he
    rcases List.mem_append.mp he with h1 | h2
    · rcases hev1 e h1 with rfl | ⟨j, rfl, -, -⟩ <;> simp
    · rcases hevf with hc | hc <;> rw [hc] at h2 <;> simp at h2 <;>
        rcases h2 with rfl | rfl | rfl <;> simp
  · intro j hj
    rcases List.mem_append.mp hj with h1 | h2
    · rcases hev1 _ h1 with heq | ⟨j', heq, hj1, hj2⟩
      · simp at heq
      · simp only [Event.call.injEq, CallKind.segment.injEq] at heq
        omega
    · rcases hevf with hc | hc <;> rw [hc] at h2 <;> simp at h2 <;> omega

/-- Witness for C8: a three-chunk text whose first segment call fails with
a non-rate-limit error. -/
theorem segment_failure_short_circuit_witness :
    ("aaa\n\nbbb".toList : Str).isEmpty = false ∧
    ¬ ("aaa\n\nbbb".toList : Str).length ≤ 0 ∧
    chunk_text "aaa\n\nbbb".toList 4 =
      [] ++ ([] : Str) :: [['a', 'a', 'a'], ['b', 'b', 'b']] ∧
    segmentAttempts (fun _ => CallResult.err "boom".toList) 1 0 =
      (Sum.inr ⟨500, Body.error "boom".toList⟩, 1,
        [Event.call (CallKind.segment 1)]) ∧
    (summarizeWith 0 4 "aaa\n\nbbb".toList
        (fun _ => CallResult.err "boom".toList) =
      (⟨500, Body.error "boom".toList⟩, [Event.call (CallKind.segment 1)]) ∧
     (∃ m, (⟨500, Body.error "boom".toList⟩ : HttpResult).body = Body.error m) ∧
     (⟨500, Body.error "boom".toList⟩ : HttpResult).status ≠ 200 ∧
     (∀ e ∈ [Event.call (CallKind.segment 1)],
        e ≠ Event.call CallKind.reduce) ∧
     (∀ j, Event.call (CallKind.segment j) ∈ [Event.call (CallKind.segment 1)] →
        j ≤ 1)) :=
  ⟨by decide, by decide, by decide, by decide,
    segment_failure_short_circuit 0 4 0 1 "aaa\n\nbbb".toList []
      (fun _ => CallResult.err "boom".toList) []
      [['a', 'a', 'a'], ['b', 'b', 'b']] [] []
      [Event.call (CallKind.segment 1)] ⟨500, Body.error "boom".toList⟩
      (by decide) (by decide) (by decide) rfl (by decide)⟩

/-- C9: in every run, the one-shot call and the reduction call are made at
most once each (no retry for either), and every segment index is called at
most twice (the bounded retry applies only to per-segment chunk calls). -/
theorem no_retry_for_oneshot_or_reduce (threshold maxChars : Nat)
    (text : Str) (oracle : Nat → CallResult) :
    oneShotCalls (summarizeWith threshold maxChars text oracle).2 ≤ 1 ∧
    reduceCalls (summarizeWith threshold maxChars text oracle).2 ≤ 1 ∧
    ∀ i, segCallsAt i (summarizeWith threshold maxChars text oracle).2 ≤ 2 := by
  unfold summarizeWith
  by_cases hemp : text.isEmpty
  · rw [if_pos hemp]
    simp [oneShotCalls, reduceCalls, segCallsAt]
  · rw [if_neg hemp]
    by_cases hlen : text.length ≤ threshold
    · rw [if_pos hlen]
      rcases ho : oracle 0 with c | m <;>
        simp [oneShotCalls, reduceCalls, segCallsAt, isOneShotCall,
          isReduceCall, isSegCallAt, List.countP_cons]
    · rw [if_neg hlen]
      rcases hloop : chunksLoop oracle 0 1 (chunk_text text maxChars)
        with ⟨res, nn, ev⟩
      have hev := chunksLoop_events oracle (chunk_text text maxChars)
        0 1 res nn ev hloop
      have hcnt := chunksLoop_segCallsAt oracle (chunk_text text maxChars)
        0 1 res nn ev hloop
      have hone : oneShotCalls ev = 0 := by
        unfold oneShotCalls
        rw [List.countP_eq_zero]
        intro e he
        rcases hev e he with rfl | ⟨j, rfl, -, -⟩ <;> simp [isOneShotCall]
      have hred : reduceCalls ev = 0 := by
        unfold reduceCalls
        rw [List.countP_eq_zero]
        intro e he
        rcases hev e he with rfl | ⟨j, rfl, -, -⟩ <;> simp [isReduceCall]
      have key : oneShotCalls (ev ++ [Event.call CallKind.reduce]) ≤ 1 ∧
          reduceCalls (ev ++ [Event.call CallKind.reduce]) ≤ 1 ∧
          ∀ i, segCallsAt i (ev ++ [Event.call CallKind.reduce]) ≤ 2 := by
        refine ⟨?_, ?_, fun i => ?_⟩
        · simp only [oneShotCalls, List.countP_append] at hone ⊢
          simp [hone, isOneShotCall]
        · simp only [reduceCalls, List.countP_append] at hred ⊢
          simp [hred, isReduceCall]
        · have hb := (hcnt i).1
          simp only [segCallsAt, List.countP_append] at hb ⊢
          simp only [List.countP_cons, List.countP_nil, isSegCallAt,
            Bool.false_eq_true, if_false]
          omega
      rcases res with ss | r
      · simp only [hloop]
        rcases ho : oracle nn with c | m <;> simp only [ho] <;> exact key
      · simp only [hloop]
        exact ⟨by simp [hone], by simp [hred], fun i => (hcnt i).1⟩

/-- C2 (amended): on an all-successful oracle, a text within the threshold
makes exactly one (one-shot) external call; a text over the threshold makes
one segment-level call per segment of `chunk_text text maxChars` and then
always exactly one reduction call, regardless of the segment count — even
when there are zero or one segments, the reduction call is still made. -/
theorem routing_call_counts (threshold maxChars : Nat) (text : Str)
    (oracle : Nat → CallResult)
    (hok : ∀ k, ∃ c, oracle k = CallResult.ok c)
    (hne : text.isEmpty = false) :
    (text.length ≤ threshold →
      (summarizeWith threshold maxChars text oracle).2 =
        [Event.call CallKind.oneShot]) ∧
    (¬ text.length ≤ threshold →
      segCalls (summarizeWith threshold maxChars text oracle).2 =
        (chunk_text text maxChars).length ∧
      reduceCalls (summarizeWith threshold maxChars text oracle).2 = 1) := by
  constructor
  · intro hlen
    unfold summarizeWith
    rw [if_neg (by simp [hne]), if_pos hlen]
    obtain ⟨c, hc⟩ := hok 0
    simp only [hc]
  · intro hlen
    unfold summarizeWith
    rw [if_neg (by simp [hne]), if_neg hlen]
    obtain ⟨ss, hss⟩ := chunksLoop_all_ok oracle hok (chunk_text text maxChars) 0 1
    simp only [hss]
    obtain ⟨c, hc⟩ := hok (0 + (chunk_text text maxChars).length)
    simp only [hc]
    constructor
    · simp only [segCalls, List.countP_append, List.countP_map,
        List.countP_cons, List.countP_nil]
      have hone : List.countP isSegCall
          [Event.call CallKind.reduce] = 0 := by simp [isSegCall]
      simp only [List.countP_cons, List.countP_nil] at hone
      have hmap : List.countP (isSegCall ∘ fun j => Event.call (CallKind.segment j))
          (List.range' 1 (chunk_text text maxChars).length) =
          (chunk_text text maxChars).length := by
        have : (isSegCall ∘ fun j => Event.call (CallKind.segment j)) =
            fun _ => true := by
          funext j
          simp [isSegCall, Function.comp]
        rw [this, List.countP_true, List.length_range']
      simp [hmap, isSegCall]
    · simp only [reduceCalls, List.countP_append, List.countP_map]
      have hmap : List.countP (isReduceCall ∘ fun j => Event.call (CallKind.segment j))
          (List.range' 1 (chunk_text text maxChars).length) = 0 := by
        rw [List.countP_eq_zero]
        intro a ha
        simp [isReduceCall, Function.comp]
      simp [hmap, isReduceCall]

/-- Witness for C2 (amended): a one-segment over-threshold text still gets
a reduction call. -/
theorem routing_call_counts_witness :
    (∀ k, ∃ c, (fun _ => CallResult.ok ['S'] : Nat → CallResult) k
      = CallResult.ok c) ∧
    ("abc".toList : Str).isEmpty = false ∧
    ((("abc".toList : Str).length ≤ 1 →
      (summarizeWith 1 10 "abc".toList (fun _ => CallResult.ok ['S'])).2 =
        [Event.call CallKind.oneShot]) ∧
    (¬ ("abc".toList : Str).length ≤ 1 →
      segCalls (summarizeWith 1 10 "abc".toList (fun _ => CallResult.ok ['S'])).2 =
        (chunk_text "abc".toList 10).length ∧
      reduceCalls (summarizeWith 1 10 "abc".toList
        (fun _ => CallResult.ok ['S'])).2 = 1)) :=
  ⟨fun k => ⟨['S'], rfl⟩, by decide,
    routing_call_counts 1 10 "abc".toList (fun _ => CallResult.ok ['S'])
      (fun k => ⟨['S'], rfl⟩) (by decide)⟩

/-- The replicate step lemma at the length used by the oversized-text
counterexamples. -/
theorem replicate_80002_cons :
    List.replicate 80002 '\n' = '\n' :: List.replicate 80001 '\n' := by
  rw [show (80002 : Nat) = 80001 + 1 from by norm_num, List.replicate_succ]

/-- C2 counterexample: the 80002-character text made of 40001 paragraph
delimiters is over `ONE_SHOT_THRESHOLD`, `chunk_text` yields zero segments
(so the segment count is not greater than 1), yet the run still makes
exactly one reduction call — the claimed "reduction iff more than one
segment" biconditional fails on the code. -/
theorem reduce_call_without_segments_cex :
    ONE_SHOT_THRESHOLD < (List.replicate 80002 '\n' : Str).length ∧
    ¬ 1 < (chunk_text (List.replicate 80002 '\n') MAX_CHARS).length ∧
    (summarize (List.replicate 80002 '\n') (fun _ => CallResult.ok ['S'])).2 =
      [Event.call CallKind.reduce] := by
  have hsplit : splitParas (List.replicate 80002 '\n') =
      List.replicate 40002 ([] : Str) := by
    rw [show (80002 : Nat) = 2 * 40001 from by norm_num,
      splitParas_replicate_newline]
  have hchunk : chunk_text (List.replicate 80002 '\n') MAX_CHARS = [] := by
    unfold chunk_text
    rw [hsplit]
    exact chunkLoop_nil_replicate MAX_CHARS 40002 (by norm_num [MAX_CHARS])
  refine ⟨by rw [List.length_replicate]; norm_num [ONE_SHOT_THRESHOLD],
    by rw [hchunk]; simp, ?_⟩
  unfold summarize summarizeWith
  rw [if_neg (by
      rw [replicate_80002_cons]
      simp only [List.isEmpty_cons]
      decide),
    if_neg (by
      rw [List.length_replicate]
      norm_num [ONE_SHOT_THRESHOLD])]
  rw [hchunk]
  rfl

/-- C4 (amended): one-shot failures and segment failures are classified by
message — a failure whose lower-cased message contains "rate limit" gets
HTTP 429, any other failure HTTP 500, with the message as the JSON error
field.  Reduction-call failures, however, always return HTTP 500 with the
message, even when the message indicates a rate limit. -/
theorem failure_classification (threshold maxChars : Nat) (text : Str)
    (oracle : Nat → CallResult) (hne : text.isEmpty = false) :
    (∀ m, text.length ≤ threshold → oracle 0 = CallResult.err m →
      summarizeWith threshold maxChars text oracle =
        (⟨if rateLimited m then 429 else 500, Body.error m⟩,
         [Event.call CallKind.oneShot])) ∧
    (∀ r n2 ev, ¬ text.length ≤ threshold →
      chunksLoop oracle 0 1 (chunk_text text maxChars) = (Sum.inr r, n2, ev) →
      summarizeWith threshold maxChars text oracle = (r, ev) ∧
      ∃ m, r.body = Body.error m ∧
        r.status = (if rateLimited m then 429 else 500)) ∧
    (∀ ss n ev m, ¬ text.length ≤ threshold →
      chunksLoop oracle 0 1 (chunk_text text maxChars) = (Sum.inl ss, n, ev) →
      oracle n = CallResult.err m →
      summarizeWith threshold maxChars text oracle =
        (⟨500, Body.error m⟩, ev ++ [Event.call CallKind.reduce])) := by
  refine ⟨?_, ?_, ?_⟩
  · intro m hlen hm
    unfold summarizeWith
    rw [if_neg (by simp [hne]), if_pos hlen]
    simp only [hm]
  · intro r n2 ev hlen hloop
    refine ⟨?_, chunksLoop_fail oracle (chunk_text text maxChars) 0 1 r n2 ev hloop⟩
    unfold summarizeWith
    rw [if_neg (by simp [hne]), if_neg hlen]
    simp only [hloop]
  · intro ss n ev m hlen hloop hm
    unfold summarizeWith
    rw [if_neg (by simp [hne]), if_neg hlen]
    simp only [hloop, hm]

/-- Witness for C4 (amended): a chunked run whose reduction call fails with
a rate-limit message still answers 500. -/
theorem failure_classification_witness :
    ("ab".toList : Str).isEmpty = false ∧
    ¬ ("ab".toList : Str).length ≤ 0 ∧
    chunksLoop (fun k => if k = 1 then CallResult.err "rate limit".toList
        else CallResult.ok ['S']) 0 1 (chunk_text "ab".toList 10) =
      (Sum.inl [['S']], 1, [Event.call (CallKind.segment 1)]) ∧
    (fun k => if k = 1 then CallResult.err "rate limit".toList
        else CallResult.ok ['S'] : Nat → CallResult) 1 =
      CallResult.err "rate limit".toList ∧
    rateLimited "rate limit".toList = true ∧
    summarizeWith 0 10 "ab".toList
        (fun k => if k = 1 then CallResult.err "rate limit".toList
          else CallResult.ok ['S']) =
      (⟨500, Body.error "rate limit".toList⟩,
       [Event.call (CallKind.segment 1), Event.call CallKind.reduce]) :=
  ⟨by decide, by decide, by decide, by decide, by decide,
    (failure_classification 0 10 "ab".toList
        (fun k => if k = 1 then CallResult.err "rate limit".toList
          else CallResult.ok ['S']) (by decide)).2.2
      [['S']] 1 [Event.call (CallKind.segment 1)] "rate limit".toList
      (by decide) (by decide) (by decide)⟩

/-- One step of `chunkLoop`: an oversized paragraph arriving on an empty
buffer flushes the empty buffer as a chunk. -/
theorem chunkLoop_nil_oversized (mc : Nat) (p : Str) (ps : List Str)
    (h : mc < p.length + 2) :
    chunkLoop mc [] (p :: ps) = [] :: chunkLoop mc p ps := by
  simp only [chunkLoop, List.length_nil, Nat.zero_add]
  rw [if_neg (by omega)]

/-- The final flush of `chunkLoop` on a non-empty buffer. -/
theorem chunkLoop_cons_nil (mc : Nat) (a : Char) (l : Str) :
    chunkLoop mc (a :: l) [] = [a :: l] := by
  simp [chunkLoop]

/-- The replicate step lemma for the 80001-character single paragraph. -/
theorem replicate_80001_cons :
    List.replicate 80001 'a' = 'a' :: List.replicate 80000 'a' := by
  rw [show (80001 : Nat) = 80000 + 1 from by norm_num, List.replicate_succ]

/-- C4 counterexample: an over-threshold single-paragraph text is chunked,
both segment calls succeed, and the reduction call fails with a message
that indicates a rate limit; the code still answers HTTP 500 (source line
200 classifies nothing), not the 429 the claim requires. -/
theorem reduce_failure_not_classified_cex :
    rateLimited "rate limit".toList = true ∧
    ONE_SHOT_THRESHOLD < (List.replicate 80001 'a' : Str).length ∧
    (summarize (List.replicate 80001 'a')
        (fun k => if k = 2 then CallResult.err "rate limit".toList
          else CallResult.ok ['S'])).1 =
      ⟨500, Body.error "rate limit".toList⟩ := by
  have hsplit : splitParas (List.replicate 80001 'a') =
      [List.replicate 80001 'a'] := by
    refine splitParas_no_newline _ (fun ch hch => ?_)
    rw [List.eq_of_mem_replicate hch]
    decide
  have hchunk : chunk_text (List.replicate 80001 'a') MAX_CHARS =
      [[], List.replicate 80001 'a'] := by
    unfold chunk_text
    rw [hsplit, chunkLoop_nil_oversized MAX_CHARS _ []
        (by rw [List.length_replicate]; norm_num [MAX_CHARS]),
      replicate_80001_cons, chunkLoop_cons_nil, ← replicate_80001_cons]
  refine ⟨by decide,
    by rw [List.length_replicate]; norm_num [ONE_SHOT_THRESHOLD], ?_⟩
  unfold summarize summarizeWith
  rw [if_neg (by
      rw [replicate_80001_cons]
      simp only [List.isEmpty_cons]
      decide),
    if_neg (by
      rw [List.length_replicate]
      norm_num [ONE_SHOT_THRESHOLD])]
  rw [hchunk]
  rfl
